import Mathlib

/-!
A verification development for the PIISearchPOC repository: a privacy-preserving
PII search index.  Strings are modelled as lists of Unicode scalar values
(`List Char`), faithful to JavaScript strings over the Basic Multilingual Plane.
The keyed hash (HMAC-SHA256, base64url) is modelled as an abstract function
parameter `H : Str → Str`: every component of the system applies the same
process-wide keyed hash, and none of the verified properties depend on its
concrete value.

The two backends are modelled from the source:
 - the in-memory backend (`FieldAwareRedisIndexer`, src/field-aware-redis-indexer.js):
   Redis sets, one per index key;
 - the relational backend (`PIIDatabaseSearchIndexer` / `PIIDatabaseSearchAPI`,
   src/pii-db-search-indexer.js and src/pii-db-search-api.js): one row per index
   key holding a comma-joined token string, a field tag and a retention timestamp.
-/

namespace PIISearch

/-- A JavaScript string, as a list of code points. -/
abbrev Str := List Char

/-! ## Normalizer (C1)

`normalize(s) = s.normalize('NFKC').toLowerCase().trim()`, identical in
field-aware-redis-indexer.js, pii-db-search-indexer.js and pii-db-search-api.js.

NFKC is modelled code-point-wise by `nfkcChar`, with an explicit table for a
selection of compatibility characters whose NFKC image is a sequence of ASCII
or Latin-1 characters (no-break space, fullwidth A/a, the fi ligature, the
Angstrom sign); every code point outside the table is mapped to itself.  This
is faithful to Unicode NFKC on text containing no combining sequences.
JavaScript `toLowerCase` is modelled on ASCII plus the lowercase images of the
table characters; `trim` strips the JavaScript whitespace characters. -/

/-- Whitespace as recognised by JavaScript `String.prototype.trim` (the
members that occur in the modelled character domain). -/
def isWs (c : Char) : Bool :=
  c = ' ' || c = '\t' || c = '\n' || c = '\r' ||
  c.toNat = 11 || c.toNat = 12 || c.toNat = 160

/-- `s.trim()`: strip leading and trailing whitespace, keep the interior. -/
def trim (s : Str) : Str :=
  ((s.dropWhile isWs).reverse.dropWhile isWs).reverse

/-- Code-point-wise NFKC: compatibility decomposition + canonical composition
for the modelled table, identity elsewhere.
U+00A0 no-break space → space; U+FF21 / U+FF41 fullwidth A / a → A / a;
U+FB01 fi ligature → "fi"; U+212B Angstrom sign → U+00C5 Å. -/
def nfkcChar (c : Char) : Str :=
  if c.toNat = 160 then [' ']
  else if c.toNat = 0xFF21 then ['A']
  else if c.toNat = 0xFF41 then ['a']
  else if c.toNat = 0xFB01 then ['f', 'i']
  else if c.toNat = 0x212B then [Char.ofNat 0xC5]
  else [c]

/-- `s.normalize('NFKC')`, code-point-wise. -/
def nfkc (s : Str) : Str := s.flatMap nfkcChar

/-- JavaScript `toLowerCase`, on the modelled character domain: ASCII A–Z,
fullwidth A (U+FF21 → U+FF41) and Å (U+00C5 → U+00E5); identity elsewhere. -/
def jsLower (c : Char) : Char :=
  if 65 ≤ c.toNat ∧ c.toNat ≤ 90 then Char.ofNat (c.toNat + 32)
  else if c.toNat = 0xFF21 then Char.ofNat 0xFF41
  else if c.toNat = 0xC5 then Char.ofNat 0xE5
  else c

/-- JavaScript `toUpperCase` on ASCII (field names are ASCII identifiers). -/
def jsUpper (c : Char) : Char :=
  if 97 ≤ c.toNat ∧ c.toNat ≤ 122 then Char.ofNat (c.toNat - 32)
  else c

/-- `normalize(s) = s.normalize('NFKC').toLowerCase().trim()`. -/
def normalize (s : Str) : Str := trim ((nfkc s).map jsLower)

/-! ## Field aliases and key derivation (C2/C3) -/

/-- The `fieldMap` object, identical in the Redis indexer, the database indexer
and the database search API. Keyed by the upper-cased full field name. -/
def fieldMap (s : Str) : Option Str :=
  if s = ("FIRST_NAME").data then some (("fn").data)
  else if s = ("LAST_NAME").data then some (("ln").data)
  else if s = ("MIDDLE_NAME").data then some (("mn").data)
  else if s = ("FULL_NAME").data then some (("name").data)
  else if s = ("EMAIL").data then some (("email").data)
  else if s = ("MOBILE_NUMBER").data then some (("phone").data)
  else if s = ("DATE_OF_BIRTH").data then some (("dob").data)
  else if s = ("ADDRESS").data then some (("addr").data)
  else if s = ("COUNTRY").data then some (("country").data)
  else if s = ("CITY").data then some (("city").data)
  else if s = ("PAN_CARD").data then some (("pan").data)
  else if s = ("PASSPORT_NUMBER").data then some (("passport").data)
  else none

/-- `getFieldAlias(fieldName) = fieldMap[fieldName.toUpperCase()] || fieldName.toLowerCase()`:
unknown field names are NOT rejected, they fall through to their lowercased form. -/
def getFieldAlias (fieldName : Str) : Str :=
  match fieldMap (fieldName.map jsUpper) with
  | some a => a
  | none => fieldName.map jsLower

/-- The HMAC message `` `${field}|${fragment}` ``. -/
def hmsg (field fragment : Str) : Str := field ++ '|' :: fragment

/-- An index key `` `idx:${field}:${tag}:${hash}` ``. -/
def mkKey (field tag hash : Str) : Str :=
  ("idx:").data ++ field ++ ':' :: tag ++ ':' :: hash

/-- The k-gram tag `` `g${k}` ``. -/
def gTag (k : Nat) : Str := 'g' :: (Nat.repr k).data

/-! ## Fragment enumerator (C4)

`generateAllIndexKeys(field, value, k = 3)`, with the same body in
field-aware-redis-indexer.js (lines 118–148) and pii-db-search-indexer.js
(lines 171–200). `n.slice(0, i)` is `n.take i`, `n.slice(i, i + k)` is
`(n.drop i).take k`, `[...n].reverse().join('')` is `n.reverse`. -/
def generateAllIndexKeys (H : Str → Str) (field value : Str) (k : Nat) : List Str :=
  let n := normalize value
  let r := n.reverse
  ([mkKey field (("eq").data) (H (hmsg field n))]
    ++ (List.range' 1 n.length).map (fun i => mkKey field (("pre").data) (H (hmsg field (n.take i))))
    ++ (List.range' 1 r.length).map (fun i => mkKey field (("suf").data) (H (hmsg field (r.take i))))
    ++ (if k ≤ n.length then
          (List.range (n.length - k + 1)).map
            (fun i => mkKey field (gTag k) (H (hmsg field ((n.drop i).take k))))
        else []))

/-- `keysFor(field, op, q, k = 3)`: the query-side key derivation, with the same
body in field-aware-redis-indexer.js (lines 91–115) and pii-db-search-api.js
(lines 106–130).  Note the operator dispatch: `eq`, `startsWith` and `endsWith`
are compared literally, and EVERY other operator string falls through to the
contains (k-gram) branch. -/
def keysFor (H : Str → Str) (field op q : Str) (k : Nat) : List Str :=
  let n := normalize q
  if op = ("eq").data then
    [mkKey field (("eq").data) (H (hmsg field n))]
  else if op = ("startsWith").data then
    [mkKey field (("pre").data) (H (hmsg field n))]
  else if op = ("endsWith").data then
    [mkKey field (("suf").data) (H (hmsg field n.reverse))]
  else if n.length < k then
    []
  else
    (List.range (n.length - k + 1)).map
      (fun i => mkKey field (gTag k) (H (hmsg field ((n.drop i).take k))))

/-! ## In-memory backend (`FieldAwareRedisIndexer`)

A Redis database restricted to the set commands the indexer uses: a map from
key to a set of members, modelled as a duplicate-free list (Redis `SADD` adds a
member only when absent). -/

/-- The in-memory store: key → set members (empty list for an absent key). -/
def RedisStore := Str → List Str

/-- The empty Redis database. -/
def emptyRedis : RedisStore := fun _ => []

/-- `SADD key token`: add `token` to the set at `key` when not yet a member. -/
def sAdd (st : RedisStore) (key token : Str) : RedisStore :=
  fun k' => if k' = key then (if token ∈ st key then st key else st key ++ [token]) else st k'

/-- `SINTER keys`: members present in every one of the listed sets. -/
def sInter (st : RedisStore) (keys : List Str) : List Str :=
  match keys with
  | [] => []
  | k0 :: rest => (st k0).filter (fun t => rest.all (fun k' => decide (t ∈ st k')))

/-- `FieldAwareRedisIndexer.indexFieldValue(fieldName, value, token, k = 3)`
(lines 151–166): derive the alias, generate all index keys, `SADD` the token
to each (the `MULTI` pipeline is atomic; its success path is the fold). -/
def indexFieldValue (H : Str → Str) (st : RedisStore) (fieldName value token : Str)
    (k : Nat) : RedisStore :=
  (generateAllIndexKeys H (getFieldAlias fieldName) value k).foldl
    (fun s key => sAdd s key token) st

/-- `FieldAwareRedisIndexer.search(fieldName, op, query, k = 3)` (lines 219–232):
no keys → `[]`; one key → `SMEMBERS`; several keys → `SINTER`. -/
def redisSearch (H : Str → Str) (st : RedisStore) (fieldName op query : Str)
    (k : Nat) : List Str :=
  match keysFor H (getFieldAlias fieldName) op query k with
  | [] => []
  | [key] => st key
  | keys => sInter st keys

/-- A JavaScript runtime error surfaced through a rejected promise. -/
inductive JsError
  | typeError (message : String)
  | unsupportedOperation (operation : Str)
deriving DecidableEq

/-- `FieldAwareRedisIndexer.removeFieldValue(fieldName, value, token, k = 3)`
(lines 196–216).  Its first statement destructures
`this.generateFieldKeys(fieldName, value, token, k)` — but no method named
`generateFieldKeys` is defined on `FieldAwareRedisIndexer` (nor anywhere in
the repository), so the property access yields `undefined` and the call
raises `TypeError: this.generateFieldKeys is not a function`, which the
surrounding try/catch logs and rethrows.  The store is never touched. -/
def removeFieldValue (st : RedisStore) (fieldName value token : Str) (k : Nat) :
    Except JsError RedisStore :=
  .error (.typeError "this.generateFieldKeys is not a function")

/-! ## Relational backend (`PIIDatabaseSearchIndexer` / `PIIDatabaseSearchAPI`)

One row of the `pii_search_index` table per index key.  Timestamps are
naturals (milliseconds); `NOW()` is passed explicitly as `now`. -/

/-- One row of `pii_search_index` (`created_at` is unused by the verified
operations and omitted). -/
structure PgRow where
  token_set : Str
  field_type : Str
  retention_until : Nat
deriving DecidableEq

/-- The relational store: key → row (none for an absent key). -/
def PgStore := Str → Option PgRow

/-- The empty table. -/
def emptyPg : PgStore := fun _ => none

/-- One year in milliseconds: `365 * 24 * 60 * 60 * 1000`. -/
def yearMs : Nat := 365 * 24 * 60 * 60 * 1000

/-- SQL `LIKE` pattern matching: `%` matches any sequence (including the
empty one), `_` matches exactly one character, every other pattern character
matches itself.  First argument the pattern, second the text.  (Faithful to
Postgres `LIKE` for patterns free of the default escape character `\`; the
escape mechanism is not modelled.) -/
def likeMatch : Str → Str → Bool
  | [], t => t.isEmpty
  | c :: p, t =>
      if c = '%' then (t.tails).any (fun t' => likeMatch p t')
      else match t with
        | [] => false
        | d :: t' => (c = '_' || c = d) && likeMatch p t'

/-- The check `hay LIKE '%' || pat || '%'` of `addTokenToIndex`: the token is
spliced into the LIKE pattern, so `%` and `_` occurring INSIDE the token act
as wildcards (e.g. `'ab' LIKE '%a_%'` is true). -/
def sqlLike (hay pat : Str) : Bool := likeMatch ('%' :: (pat ++ ['%'])) hay

/-- `PIIDatabaseSearchIndexer.addTokenToIndex(hmacKey, opaqueToken, fieldType,
retentionDate = null)` (lines 285–302): an `INSERT ... ON CONFLICT (hmac_key)
DO UPDATE` that creates the row when absent; on conflict it leaves `token_set`
unchanged when `token_set LIKE '%' || token || '%'` (a SUBSTRING test, not a
membership test) and otherwise appends `',' || token`, and always raises
`retention_until` to `GREATEST(old, new)`.  `field_type` is written only on
first create.  The default retention is one year from now. -/
def addTokenToIndex (st : PgStore) (now : Nat) (hmacKey opaqueToken fieldType : Str)
    (retentionDate : Option Nat) : PgStore :=
  let retention := retentionDate.getD (now + yearMs)
  fun k' =>
    if k' = hmacKey then
      match st hmacKey with
      | none => some ⟨opaqueToken, fieldType, retention⟩
      | some row =>
          some ⟨(if sqlLike row.token_set opaqueToken then row.token_set
                 else row.token_set ++ ',' :: opaqueToken),
                row.field_type,
                max row.retention_until retention⟩
    else st k'

/-- `PIIDatabaseSearchIndexer.indexFieldValue(fieldName, value, token)`
(lines 305–330): same key generation as the Redis indexer, one
`addTokenToIndex` per key inside a transaction (success path). -/
def dbIndexFieldValue (H : Str → Str) (st : PgStore) (now : Nat)
    (fieldName value token : Str) : PgStore :=
  (generateAllIndexKeys H (getFieldAlias fieldName) value 3).foldl
    (fun s key => addTokenToIndex s now key token fieldName none) st

/-- Postgres `string_to_array(s, ',')`. -/
def splitComma : Str → List Str
  | [] => [[]]
  | c :: cs =>
      if c = ',' then [] :: splitComma cs
      else
        match splitComma cs with
        | [] => [[c]]
        | h :: t => (c :: h) :: t

/-- The token multiset stored in one `token_set` column, as the search API
reads it: split on commas, `trim()` each piece, drop empty pieces. -/
def parseTokens (token_set : Str) : List Str :=
  ((splitComma token_set).map trim).filter (fun t => !t.isEmpty)

/-- `PIIDatabaseSearchAPI.searchTokensInIndex(keys)` (lines 133–154):
`SELECT DISTINCT unnest(string_to_array(token_set, ',')) FROM pii_search_index
WHERE hmac_key IN (keys) AND retention_until > NOW()`, each token trimmed and
empty tokens dropped, collected into a JavaScript `Set`. -/
def searchTokensInIndex (st : PgStore) (now : Nat) (keys : List Str) : List Str :=
  (keys.flatMap fun key =>
    match st key with
    | some row => if now < row.retention_until then parseTokens row.token_set else []
    | none => []).dedup

/-- `PIIDatabaseSearchAPI.search(fieldName, op, query, k = 3)` (lines 157–184):
no keys → `[]`; one key → a single index lookup; several keys → one lookup per
key and the intersection of the resulting sets. -/
def dbSearch (H : Str → Str) (st : PgStore) (now : Nat) (fieldName op query : Str)
    (k : Nat) : List Str :=
  match keysFor H (getFieldAlias fieldName) op query k with
  | [] => []
  | [key] => searchTokensInIndex st now [key]
  | k0 :: rest =>
      (searchTokensInIndex st now [k0]).filter
        (fun t => rest.all (fun k' => decide (t ∈ searchTokensInIndex st now [k'])))

/-- The search-side configuration of pii-db-search-api.js: `minResultSize` is
the k-anonymity threshold (default 5), `minQueryLength` the minimum raw query
length (default 2). -/
structure SearchConfig where
  minResultSize : Nat
  minQueryLength : Nat

/-- The response object of `PIIDatabaseSearchAPI.performSearch` (the
`executionTime` field is timing only and omitted). -/
structure SearchResponse where
  tokens : List Str
  resultCount : Nat
  anonymizedCount : Nat
  kAnonymityApplied : Bool
deriving DecidableEq

/-- The `switch (queryType.toLowerCase())` of `performSearch` (lines 300–317):
`exact`/`equals` → `eq`, `starts_with`/`startswith` → `startsWith`,
`ends_with`/`endswith` → `endsWith`, everything else (including `contains`)
→ `contains`. -/
def mapQueryType (queryType : Str) : Str :=
  let q := queryType.map jsLower
  if q = ("exact").data ∨ q = ("equals").data then ("eq").data
  else if q = ("starts_with").data ∨ q = ("startswith").data then ("startsWith").data
  else if q = ("ends_with").data ∨ q = ("endswith").data then ("endsWith").data
  else ("contains").data

/-- `PIIDatabaseSearchAPI.performSearch(query, fieldType, queryType)` (lines
289–350): reject queries shorter than `minQueryLength`, run the core search,
then apply the k-anonymity gate: the token list passes through only when
`resultCount >= minResultSize`, otherwise it is replaced by `[]`;
`kAnonymityApplied = resultCount > 0 && anonymizedTokens.length === 0`. -/
def performSearch (H : Str → Str) (cfg : SearchConfig) (st : PgStore) (now : Nat)
    (query fieldType queryType : Str) : Except JsError SearchResponse :=
  if query.isEmpty ∨ query.length < cfg.minQueryLength then
    .error (.typeError "Query too short")
  else
    let operation := mapQueryType queryType
    let tokens := dbSearch H st now fieldType operation query 3
    let resultCount := tokens.length
    let anonymizedTokens := if cfg.minResultSize ≤ resultCount then tokens else []
    .ok { tokens := anonymizedTokens
          resultCount := resultCount
          anonymizedCount := anonymizedTokens.length
          kAnonymityApplied := decide (0 < resultCount) && anonymizedTokens.isEmpty }

/-- One condition of a complex query: `{ field, operation, value }`. -/
structure QueryCondition where
  field : Str
  operation : Str
  value : Str

/-- The `switch (operation.toLowerCase())` of `executeComplexQuery`
(pii-db-search-api.js lines 213–228): only `equals`, `startswith`,
`endswith` and `contains` are accepted; anything else throws. -/
def condSearch (H : Str → Str) (st : PgStore) (now : Nat) (c : QueryCondition) :
    Except JsError (List Str) :=
  let op := c.operation.map jsLower
  if op = ("equals").data then .ok (dbSearch H st now c.field (("eq").data) c.value 3)
  else if op = ("startswith").data then
    .ok (dbSearch H st now c.field (("startsWith").data) c.value 3)
  else if op = ("endswith").data then
    .ok (dbSearch H st now c.field (("endsWith").data) c.value 3)
  else if op = ("contains").data then
    .ok (dbSearch H st now c.field (("contains").data) c.value 3)
  else .error (.unsupportedOperation c.operation)

/-- Fold the per-condition result sets with AND (intersection) / OR (union),
starting from the first set, as in lines 234–248. -/
def composeSets (operator : Str) (first : List Str) (rest : List (List Str)) : List Str :=
  rest.foldl
    (fun acc s =>
      if operator.map jsUpper = ("AND").data then acc.filter (fun t => decide (t ∈ s))
      else if operator.map jsUpper = ("OR").data then acc ++ s.filter (fun t => decide (t ∉ acc))
      else acc)
    first

/-- `PIIDatabaseSearchAPI.executeComplexQuery(queryConditions, operator = 'AND')`
(lines 204–253): evaluate every condition, then fold with intersection or
union.  NOTE: no k-anonymity gate and no suppression flag appear on this
path; the composed set is returned as is. -/
def executeComplexQuery (H : Str → Str) (st : PgStore) (now : Nat)
    (conds : List QueryCondition) (operator : Str) : Except JsError (List Str) :=
  match conds.mapM (condSearch H st now) with
  | .error e => .error e
  | .ok [] => .ok []
  | .ok (s0 :: rest) => .ok (composeSets operator s0 rest)

/-! ## Lemmas about the normalizer -/

theorem toNat_ofNat_valid (n : Nat) (hv : n.isValidChar) : (Char.ofNat n).toNat = n := by
  have hlt : n < 1114112 := by
    rcases hv with h | ⟨_, h2⟩
    · omega
    · exact h2
  unfold Char.ofNat
  rw [dif_pos hv]
  unfold Char.ofNatAux Char.toNat
  simp [UInt32.toNat, Nat.toUInt32, UInt32.ofNat']

theorem toNat_ofNat_small (n : Nat) (h : n < 55296) : (Char.ofNat n).toNat = n :=
  toNat_ofNat_valid n (Or.inl h)

theorem toNat_ofNat_high (n : Nat) (h1 : 57344 ≤ n) (h2 : n < 1114112) :
    (Char.ofNat n).toNat = n :=
  toNat_ofNat_valid n (Or.inr ⟨h1, h2⟩)

/-- A character left untouched by a second pass of the normalizer. -/
def normFixedChar (c : Char) : Prop := nfkcChar c = [c] ∧ jsLower c = c

theorem char_eq_of_toNat (c : Char) (n : Nat) (hv : n.isValidChar)
    (h : c.toNat = n) : c = Char.ofNat n := by
  have h2 := toNat_ofNat_valid n hv
  apply Char.ext
  apply UInt32.ext
  show c.toNat = (Char.ofNat n).toNat
  omega

theorem nfkcChar_of_ne (c : Char) (h160 : c.toNat ≠ 160) (hA : c.toNat ≠ 0xFF21)
    (ha : c.toNat ≠ 0xFF41) (hfi : c.toNat ≠ 0xFB01) (hang : c.toNat ≠ 0x212B) :
    nfkcChar c = [c] := by
  unfold nfkcChar
  rw [if_neg h160, if_neg hA, if_neg ha, if_neg hfi, if_neg hang]

theorem jsLower_of_ne (c : Char) (hup : ¬(65 ≤ c.toNat ∧ c.toNat ≤ 90))
    (hA : c.toNat ≠ 0xFF21) (hang : c.toNat ≠ 0xC5) : jsLower c = c := by
  unfold jsLower
  rw [if_neg hup, if_neg hA, if_neg hang]

theorem jsLower_upper (c : Char) (h : 65 ≤ c.toNat ∧ c.toNat ≤ 90) :
    jsLower c = Char.ofNat (c.toNat + 32) := by
  unfold jsLower
  rw [if_pos h]

/-- Every character produced by `toLowerCase ∘ NFKC` is a fixpoint of both. -/
theorem normFixed_of_mem (c : Char) :
    ∀ d ∈ (nfkcChar c).map jsLower, normFixedChar d := by
  intro d hd
  by_cases h160 : c.toNat = 160
  · simp [nfkcChar, h160] at hd
    subst hd
    constructor <;> decide
  · by_cases hA : c.toNat = 0xFF21
    · simp [nfkcChar, h160, hA] at hd
      subst hd
      constructor <;> decide
    · by_cases ha : c.toNat = 0xFF41
      · simp [nfkcChar, h160, hA, ha] at hd
        subst hd
        constructor <;> decide
      · by_cases hfi : c.toNat = 0xFB01
        · simp [nfkcChar, h160, hA, ha, hfi] at hd
          rcases hd with hd | hd <;> subst hd <;> constructor <;> decide
        · by_cases hang : c.toNat = 0x212B
          · simp [nfkcChar, h160, hA, ha, hfi, hang] at hd
            subst hd
            constructor <;> decide
          · rw [nfkcChar_of_ne c h160 hA ha hfi hang] at hd
            simp at hd
            subst hd
            by_cases hup : 65 ≤ c.toNat ∧ c.toNat ≤ 90
            · rw [jsLower_upper c hup]
              have ht : (Char.ofNat (c.toNat + 32)).toNat = c.toNat + 32 :=
                toNat_ofNat_small _ (by omega)
              constructor
              · exact nfkcChar_of_ne _ (by omega) (by omega) (by omega) (by omega) (by omega)
              · exact jsLower_of_ne _ (by omega) (by omega) (by omega)
            · by_cases hc5 : c.toNat = 0xC5
              · have : jsLower c = Char.ofNat 0xE5 := by
                  unfold jsLower
                  rw [if_neg hup, if_neg (by omega), if_pos hc5]
                rw [this]
                constructor <;> decide
              · rw [jsLower_of_ne c hup (by omega) hc5]
                constructor
                · exact nfkcChar_of_ne c h160 hA ha hfi hang
                · exact jsLower_of_ne c hup (by omega) hc5

/-- Lowercasing before or after NFKC yields the same lowercased image. -/
theorem nfkc_lower_compat (c : Char) :
    (nfkcChar c).map jsLower = (nfkcChar (jsLower c)).map jsLower := by
  by_cases h160 : c.toNat = 160
  · rw [char_eq_of_toNat c 160 (Or.inl (by omega)) h160]
    decide
  · by_cases hA : c.toNat = 0xFF21
    · rw [char_eq_of_toNat c 0xFF21 (Or.inr (by omega)) hA]
      decide
    · by_cases ha : c.toNat = 0xFF41
      · rw [char_eq_of_toNat c 0xFF41 (Or.inr (by omega)) ha]
        decide
      · by_cases hfi : c.toNat = 0xFB01
        · rw [char_eq_of_toNat c 0xFB01 (Or.inr (by omega)) hfi]
          decide
        · by_cases hang : c.toNat = 0x212B
          · rw [char_eq_of_toNat c 0x212B (Or.inl (by omega)) hang]
            decide
          · rw [nfkcChar_of_ne c h160 hA ha hfi hang]
            by_cases hup : 65 ≤ c.toNat ∧ c.toNat ≤ 90
            · rw [jsLower_upper c hup]
              have ht : (Char.ofNat (c.toNat + 32)).toNat = c.toNat + 32 :=
                toNat_ofNat_small _ (by omega)
              rw [nfkcChar_of_ne _ (by omega) (by omega) (by omega) (by omega) (by omega)]
              simp only [List.map_cons, List.map_nil]
              rw [jsLower_upper c hup, jsLower_of_ne _ (by omega) (by omega) (by omega)]
            · by_cases hc5 : c.toNat = 0xC5
              · rw [char_eq_of_toNat c 0xC5 (Or.inl (by omega)) hc5]
                decide
              · rw [jsLower_of_ne c hup (by omega) hc5,
                    nfkcChar_of_ne c h160 hA ha hfi hang]

/-- Whitespace survives `toLowerCase ∘ NFKC` as whitespace. -/
theorem ws_stable (c : Char) (h : isWs c = true) :
    ∀ d ∈ (nfkcChar c).map jsLower, isWs d = true := by
  intro d hd
  have hnat : c.toNat = 32 ∨ c.toNat = 9 ∨ c.toNat = 10 ∨ c.toNat = 13 ∨
      c.toNat = 11 ∨ c.toNat = 12 ∨ c.toNat = 160 := by
    unfold isWs at h
    simp only [Bool.or_eq_true, decide_eq_true_eq, beq_iff_eq] at h
    rcases h with ((((((h | h) | h) | h) | h) | h) | h)
    · left; rw [h]; rfl
    · right; left; rw [h]; rfl
    · right; right; left; rw [h]; rfl
    · right; right; right; left; rw [h]; rfl
    · omega
    · omega
    · omega
  have hval : c.toNat < 55296 := by omega
  rcases hnat with h' | h' | h' | h' | h' | h' | h' <;>
    rw [char_eq_of_toNat c _ (Or.inl (by omega)) h'] at hd <;>
    simp only [nfkcChar, jsLower] at hd <;> simp at hd <;> subst hd <;> decide

/-! ### trim lemmas -/

theorem dropWhile_append_of_forall {p : Char → Bool} {a y : Str}
    (ha : ∀ c ∈ a, p c = true) : (a ++ y).dropWhile p = y.dropWhile p := by
  induction a with
  | nil => rfl
  | cons c cs ih =>
      have hc : p c = true := ha c (by simp)
      simp only [List.cons_append, List.dropWhile_cons, hc, if_true]
      exact ih (fun d hd => ha d (by simp [hd]))

theorem dropWhile_append_of_ne {p : Char → Bool} {y b : Str}
    (hy : y.dropWhile p ≠ []) : (y ++ b).dropWhile p = y.dropWhile p ++ b := by
  induction y with
  | nil => simp at hy
  | cons c cs ih =>
      by_cases hc : p c = true
      · simp only [List.dropWhile_cons, hc, if_true] at hy ⊢
        simp only [List.cons_append, List.dropWhile_cons, hc, if_true]
        exact ih hy
      · simp only [List.cons_append, List.dropWhile_cons, hc]
        simp [hc]

theorem trim_append_left {a y : Str} (ha : ∀ c ∈ a, isWs c = true) :
    trim (a ++ y) = trim y := by
  unfold trim
  rw [dropWhile_append_of_forall ha]

theorem trim_append_right {y b : Str} (hb : ∀ c ∈ b, isWs c = true) :
    trim (y ++ b) = trim y := by
  unfold trim
  by_cases hy : y.dropWhile isWs = []
  · rw [hy]
    have : (y ++ b).dropWhile isWs = b.dropWhile isWs := by
      have h1 : ∀ c ∈ y, isWs c = true := by
        intro c hc
        by_contra hfalse
        have := List.dropWhile_eq_nil_iff.mp hy c hc
        simp_all
      exact dropWhile_append_of_forall h1
    rw [this]
    have hb' : b.dropWhile isWs = [] := by
      rw [List.dropWhile_eq_nil_iff]
      intro c hc
      exact hb c hc
    rw [hb']
  · rw [dropWhile_append_of_ne hy, List.reverse_append]
    rw [dropWhile_append_of_forall (by
      intro c hc
      exact hb c (List.mem_reverse.mp hc))]

theorem trim_append_ws {a x b : Str} (ha : ∀ c ∈ a, isWs c = true)
    (hb : ∀ c ∈ b, isWs c = true) : trim (a ++ x ++ b) = trim x := by
  rw [List.append_assoc, trim_append_left ha, trim_append_right hb]

/-- `trim` only removes characters: its result is a subset of the input. -/
theorem mem_of_mem_trim {s : Str} {c : Char} (h : c ∈ trim s) : c ∈ s := by
  unfold trim at h
  rw [List.mem_reverse] at h
  have h1 := List.dropWhile_sublist (l := (s.dropWhile isWs).reverse) (p := isWs)
  have h2 := (h1.subset h)
  rw [List.mem_reverse] at h2
  exact (List.dropWhile_sublist (l := s) (p := isWs)).subset h2

theorem dropWhile_idem {p : Char → Bool} (l : Str) :
    (l.dropWhile p).dropWhile p = l.dropWhile p := by
  induction l with
  | nil => rfl
  | cons c cs ih =>
      by_cases hc : p c = true
      · simp [List.dropWhile_cons, hc, ih]
      · simp [List.dropWhile_cons, hc]

theorem dropWhile_of_isPre {p : Char → Bool} {u v : Str} (huv : u <+: v)
    (hv : v.dropWhile p = v) : u.dropWhile p = u := by
  cases u with
  | nil => rfl
  | cons c cs =>
      cases v with
      | nil => simp at huv
      | cons d ds =>
          have hcd : c = d := by
            rcases huv with ⟨t, ht⟩
            simpa using congrArg (fun l => l.headI) ht
          subst hcd
          by_cases hc : p c = true
          · exfalso
            simp only [List.dropWhile_cons, hc, if_true] at hv
            have := congrArg List.length hv
            have hds := List.dropWhile_sublist (l := ds) (p := p) |>.length_le
            simp at this
            omega
          · simp [List.dropWhile_cons, hc]

theorem trim_idem (s : Str) : trim (trim s) = trim s := by
  have hR : (trim s).reverse = ((s.dropWhile isWs).reverse).dropWhile isWs := by
    unfold trim
    rw [List.reverse_reverse]
  have h1 : (trim s).dropWhile isWs = trim s := by
    apply dropWhile_of_isPre _ (dropWhile_idem s)
    have h2 : (s.dropWhile isWs).reverse.dropWhile isWs <:+ (s.dropWhile isWs).reverse :=
      List.dropWhile_suffix isWs
    rcases h2 with ⟨t, ht⟩
    refine ⟨t.reverse, ?_⟩
    have h3 := congrArg List.reverse ht
    rw [List.reverse_append, List.reverse_reverse] at h3
    unfold trim
    exact h3
  have h3 : (trim s).reverse.dropWhile isWs = (trim s).reverse := by
    rw [hR, dropWhile_idem]
  show (((trim s).dropWhile isWs).reverse.dropWhile isWs).reverse = trim s
  rw [h1, h3, List.reverse_reverse]

/-! ### normalize lemmas -/

theorem normFixed_of_mem_lower_nfkc (s : Str) :
    ∀ d ∈ (nfkc s).map jsLower, normFixedChar d := by
  intro d hd
  rw [List.mem_map] at hd
  rcases hd with ⟨e, he, hde⟩
  unfold nfkc at he
  rw [List.mem_flatMap] at he
  rcases he with ⟨c, _, hec⟩
  exact normFixed_of_mem c d (by
    rw [List.mem_map]
    exact ⟨e, hec, hde⟩)

theorem nfkc_of_fixed {u : Str} (h : ∀ d ∈ u, nfkcChar d = [d]) : nfkc u = u := by
  induction u with
  | nil => rfl
  | cons c cs ih =>
      unfold nfkc at ih ⊢
      rw [List.flatMap_cons, h c (by simp), ih (fun d hd => h d (by simp [hd]))]
      rfl

theorem map_jsLower_of_fixed {u : Str} (h : ∀ d ∈ u, jsLower d = d) :
    u.map jsLower = u := by
  induction u with
  | nil => rfl
  | cons c cs ih =>
      rw [List.map_cons, h c (by simp), ih (fun d hd => h d (by simp [hd]))]

theorem normalize_fix_output (s : Str) : ∀ d ∈ normalize s, normFixedChar d := by
  intro d hd
  exact normFixed_of_mem_lower_nfkc s d (mem_of_mem_trim hd)

/-- `normalize` is idempotent. -/
theorem normalize_idem (s : Str) : normalize (normalize s) = normalize s := by
  have hfix := normalize_fix_output s
  show trim ((nfkc (normalize s)).map jsLower) = normalize s
  rw [nfkc_of_fixed (fun d hd => (hfix d hd).1),
      map_jsLower_of_fixed (fun d hd => (hfix d hd).2)]
  show trim (trim ((nfkc s).map jsLower)) = normalize s
  rw [trim_idem]
  rfl

/-- Strings that differ only by letter case normalize identically. -/
theorem normalize_case {s t : Str} (h : s.map jsLower = t.map jsLower) :
    normalize s = normalize t := by
  have key : ∀ u : Str, (nfkc u).map jsLower =
      (u.map jsLower).flatMap (fun c => (nfkcChar c).map jsLower) := by
    intro u
    unfold nfkc
    rw [List.map_flatMap, List.flatMap_map]
    apply List.flatMap_congr
    intro c _
    exact nfkc_lower_compat c
  show trim ((nfkc s).map jsLower) = trim ((nfkc t).map jsLower)
  rw [key s, key t, h]

/-- Strings that differ only by leading/trailing whitespace normalize
identically. -/
theorem normalize_outer_ws {w1 w2 s : Str} (h1 : ∀ c ∈ w1, isWs c = true)
    (h2 : ∀ c ∈ w2, isWs c = true) : normalize (w1 ++ s ++ w2) = normalize s := by
  show trim ((nfkc (w1 ++ s ++ w2)).map jsLower) = normalize s
  unfold nfkc
  rw [List.flatMap_append, List.flatMap_append, List.map_append, List.map_append]
  rw [trim_append_ws ?_ ?_]
  · rfl
  · intro c hc
    rw [List.mem_map] at hc
    rcases hc with ⟨e, he, hce⟩
    rw [List.mem_flatMap] at he
    rcases he with ⟨a, ha, hea⟩
    exact ws_stable a (h1 a ha) c (by
      rw [List.mem_map]
      exact ⟨e, hea, hce⟩)
  · intro c hc
    rw [List.mem_map] at hc
    rcases hc with ⟨e, he, hce⟩
    rw [List.mem_flatMap] at he
    rcases he with ⟨a, ha, hea⟩
    exact ws_stable a (h2 a ha) c (by
      rw [List.mem_map]
      exact ⟨e, hea, hce⟩)

/-! ## Claim C9 — normalization -/

/-- C9: for all strings `s`, `normalize (normalize s) = normalize s`
(idempotence); strings that differ only by case, NFKC compatibility variants,
or leading/trailing whitespace have equal images under `normalize`, and
therefore derive the same index keys on both the indexing side
(`generateAllIndexKeys`) and the query side (`keysFor`). -/
theorem claim_C9_normalization :
    (∀ s : Str, normalize (normalize s) = normalize s) ∧
    (∀ s t : Str, s.map jsLower = t.map jsLower → normalize s = normalize t) ∧
    (∀ s t : Str, nfkc s = nfkc t → normalize s = normalize t) ∧
    (∀ w1 w2 s : Str, (∀ c ∈ w1, isWs c = true) → (∀ c ∈ w2, isWs c = true) →
        normalize (w1 ++ s ++ w2) = normalize s) ∧
    (∀ (H : Str → Str) (field op s t : Str) (k : Nat), normalize s = normalize t →
        keysFor H field op s k = keysFor H field op t k ∧
        generateAllIndexKeys H field s k = generateAllIndexKeys H field t k) := by
  refine ⟨normalize_idem, fun s t h => normalize_case h, ?_, ?_, ?_⟩
  · intro s t h
    show trim ((nfkc s).map jsLower) = trim ((nfkc t).map jsLower)
    rw [h]
  · intro w1 w2 s h1 h2
    exact normalize_outer_ws h1 h2
  · intro H field op s t k h
    constructor
    · unfold keysFor
      rw [h]
    · unfold generateAllIndexKeys
      rw [h]

/-- Witness for C9 at concrete inputs: `" AbC "` (outer whitespace) and
`"abc"` (case variant) normalize identically. -/
theorem claim_C9_normalization_witness :
    normalize ((" ").data ++ ("AbC").data ++ (" ").data) = normalize (("abc").data) := by
  have h := claim_C9_normalization
  have e1 := h.2.2.2.1 ((" ").data) ((" ").data) (("AbC").data) (by decide) (by decide)
  have e2 := h.2.1 (("AbC").data) (("abc").data) (by decide)
  exact e1.trans e2

/-! ## Claim C8 — fragment enumeration -/

theorem map_range'_one {α : Type} (f : Nat → α) (len : Nat) :
    (List.range' 1 len).map f = (List.range len).map (fun i => f (i + 1)) := by
  induction len with
  | zero => rfl
  | succ m ih =>
      rw [List.range'_1_concat, List.range_succ, List.map_append, List.map_append, ih]
      simp [Nat.add_comm]

/-- C8: for every field alias and value with non-empty normalized form `n`,
`generateAllIndexKeys` emits exactly one `eq` key (for `n` itself), one `pre`
key per non-empty prefix `n.take (i+1)`, one `suf` key per non-empty prefix of
the reversal, and one `g3` key per 3-character sliding window (none when
`|n| < 3`), and its length is `1 + 2|n| + max(0, |n| − 3 + 1)` (which in
truncated subtraction is `|n| + 1 − 3`). -/
theorem claim_C8_fragment_enumeration (H : Str → Str) (field value : Str)
    (hne : normalize value ≠ []) :
    ((generateAllIndexKeys H field value 3).length
        = 1 + 2 * (normalize value).length + ((normalize value).length + 1 - 3)) ∧
    generateAllIndexKeys H field value 3 =
      mkKey field (("eq").data) (H (hmsg field (normalize value))) ::
      ((List.range (normalize value).length).map
          (fun i => mkKey field (("pre").data) (H (hmsg field ((normalize value).take (i + 1)))))
        ++ (List.range (normalize value).length).map
          (fun i => mkKey field (("suf").data)
            (H (hmsg field ((normalize value).reverse.take (i + 1)))))
        ++ (List.range ((normalize value).length + 1 - 3)).map
          (fun i => mkKey field (gTag 3) (H (hmsg field (((normalize value).drop i).take 3))))) := by
  constructor
  · unfold generateAllIndexKeys
    by_cases h3 : 3 ≤ (normalize value).length
    · simp [h3]
      omega
    · simp [h3]
      omega
  · unfold generateAllIndexKeys
    simp only [List.singleton_append, List.cons.injEq, true_and, List.length_reverse]
    rw [map_range'_one, map_range'_one]
    by_cases h3 : 3 ≤ (normalize value).length
    · rw [if_pos h3]
      have : (normalize value).length - 3 + 1 = (normalize value).length + 1 - 3 := by omega
      rw [this]
      rfl
    · rw [if_neg h3]
      have : (normalize value).length + 1 - 3 = 0 := by omega
      rw [this]
      rfl

/-- Witness for C8: indexing the value `"Arjun"` under alias `"email"` with
the identity in place of the keyed hash emits `1 + 2·5 + 3 = 14` keys. -/
theorem claim_C8_fragment_enumeration_witness :
    (generateAllIndexKeys (fun s => s) (("email").data) (("Arjun").data) 3).length = 14 := by
  have h := claim_C8_fragment_enumeration (fun s => s) (("email").data) (("Arjun").data)
    (by decide)
  rw [h.1]
  decide

/-! ## Redis store lemmas -/

theorem sAdd_mem_iff {st : RedisStore} {key token : Str} (k' : Str) (t : Str) :
    t ∈ (sAdd st key token) k' ↔ t ∈ st k' ∨ (k' = key ∧ t = token) := by
  unfold sAdd
  by_cases hk : k' = key
  · subst hk
    by_cases hm : token ∈ st k'
    · simp [hm]
      intro h
      rw [h]
      exact hm
    · simp [hm]
  · simp [hk]

theorem sAdd_of_mem {st : RedisStore} {key token : Str} (h : token ∈ st key) :
    sAdd st key token = st := by
  funext k'
  unfold sAdd
  by_cases hk : k' = key
  · subst hk
    simp [h]
  · simp [hk]

theorem foldl_sAdd_mono {token : Str} (ks : List Str) (st : RedisStore) (k' t : Str)
    (h : t ∈ st k') : t ∈ (ks.foldl (fun s key => sAdd s key token) st) k' := by
  induction ks generalizing st with
  | nil => exact h
  | cons key rest ih =>
      exact ih (sAdd st key token) ((sAdd_mem_iff k' t).mpr (Or.inl h))

theorem foldl_sAdd_mem {token : Str} (ks : List Str) (st : RedisStore) (key : Str)
    (hk : key ∈ ks) : token ∈ (ks.foldl (fun s key => sAdd s key token) st) key := by
  induction ks generalizing st with
  | nil => simp at hk
  | cons k0 rest ih =>
      rcases List.mem_cons.mp hk with h | h
      · subst h
        exact foldl_sAdd_mono rest _ key token ((sAdd_mem_iff key token).mpr (Or.inr ⟨rfl, rfl⟩))
      · exact ih _ h

theorem foldl_sAdd_of_mem {token : Str} (ks : List Str) (st : RedisStore)
    (h : ∀ key ∈ ks, token ∈ st key) :
    ks.foldl (fun s key => sAdd s key token) st = st := by
  induction ks with
  | nil => rfl
  | cons k0 rest ih =>
      show rest.foldl _ (sAdd st k0 token) = st
      rw [sAdd_of_mem (h k0 (by simp))]
      exact ih (fun key hk => h key (by simp [hk]))

theorem sAdd_nodup {st : RedisStore} {key token : Str}
    (h : ∀ k', (st k').Nodup) : ∀ k', ((sAdd st key token) k').Nodup := by
  intro k'
  unfold sAdd
  by_cases hk : k' = key
  · subst hk
    by_cases hm : token ∈ st k'
    · simp [hm, h k']
    · simp [hm]
      exact List.Nodup.append (h k') (by simp) (by
        intro a ha hb
        simp at hb
        subst hb
        exact hm ha)
  · simp [hk, h k']

theorem foldl_sAdd_nodup {token : Str} (ks : List Str) (st : RedisStore)
    (h : ∀ k', (st k').Nodup) :
    ∀ k', ((ks.foldl (fun s key => sAdd s key token) st) k').Nodup := by
  induction ks generalizing st with
  | nil => exact h
  | cons k0 rest ih => exact ih _ (sAdd_nodup h)

/-! ## Claim C10 — idempotent re-indexing -/

/-- C10: on the in-memory backend, indexing the same `(field, value, token)`
twice leaves the store exactly as indexing it once (`SADD` absorbs repeated
adds, including the duplicate keys the enumerator emits), and posting lists
stay duplicate-free: if every set in the store is duplicate-free, it remains
so after `indexFieldValue`. -/
theorem claim_C10_idempotent_reindex (H : Str → Str) (st : RedisStore)
    (fieldName value token : Str) (k : Nat) :
    indexFieldValue H (indexFieldValue H st fieldName value token k)
        fieldName value token k = indexFieldValue H st fieldName value token k ∧
    ((∀ key, (st key).Nodup) →
      ∀ key, ((indexFieldValue H st fieldName value token k) key).Nodup) := by
  constructor
  · unfold indexFieldValue
    apply foldl_sAdd_of_mem
    intro key hk
    exact foldl_sAdd_mem _ st key hk
  · intro h key
    exact foldl_sAdd_nodup _ st h key

/-- Witness for C10 at a concrete input: double-indexing `FIRST_NAME="Anna"`
(whose palindromic fragments also make the enumerator emit duplicate keys)
equals single indexing, and the resulting posting lists are duplicate-free. -/
theorem claim_C10_idempotent_reindex_witness :
    ((indexFieldValue (fun s => s) emptyRedis (("FIRST_NAME").data) (("Anna").data)
        (("T1").data) 3) (mkKey (("fn").data) (("pre").data) (("fn|a").data))).Nodup := by
  have h := claim_C10_idempotent_reindex (fun s => s) emptyRedis (("FIRST_NAME").data)
    (("Anna").data) (("T1").data) 3
  exact h.2 (fun key => by simp [emptyRedis]) _

/-! ## Claim C5 — round-trip erasure (code bug) -/

/-- C5 (code bug): `removeFieldValue` can never complete successfully — its
first statement calls `this.generateFieldKeys`, a method that exists nowhere
in the repository, so every invocation rejects with a `TypeError` and the
store is left untouched.  Concretely, after indexing `EMAIL="ab"` as `T1` and
attempting the removal, an `eq` query still returns `T1`. -/
theorem claim_C5_removeFieldValue_broken :
    (∀ (st : RedisStore) (fieldName value token : Str) (k : Nat),
        removeFieldValue st fieldName value token k =
          Except.error (JsError.typeError "this.generateFieldKeys is not a function")) ∧
    removeFieldValue
        (indexFieldValue (fun s => s) emptyRedis (("EMAIL").data) (("ab").data)
          (("T1").data) 3) (("EMAIL").data) (("ab").data) (("T1").data) 3
      = Except.error (JsError.typeError "this.generateFieldKeys is not a function") ∧
    (("T1").data) ∈ redisSearch (fun s => s)
        (indexFieldValue (fun s => s) emptyRedis (("EMAIL").data) (("ab").data)
          (("T1").data) 3)
        (("EMAIL").data) (("eq").data) (("ab").data) 3 := by
  refine ⟨fun st fieldName value token k => rfl, rfl, ?_⟩
  decide

/-! ## Claim C6 — retention -/

/-- C6: on the relational backend, every token a lookup returns originates in
a row whose `retention_until` lies strictly in the future, and a lookup (or a
full search) performed strictly after a row's `retention_until` returns
exactly what it would return were the row absent.  (The in-memory backend
stores no expiry metadata at all — `indexFieldValue` sets no TTL — so no
in-memory entry has an expiry to outlive.) -/
theorem claim_C6_retention :
    (∀ (st : PgStore) (now : Nat) (keys : List Str) (t : Str),
        t ∈ searchTokensInIndex st now keys →
        ∃ key ∈ keys, ∃ row, st key = some row ∧ now < row.retention_until ∧
          t ∈ parseTokens row.token_set) ∧
    (∀ (st : PgStore) (now : Nat) (key : Str) (row : PgRow),
        st key = some row → row.retention_until < now →
        ∀ keys : List Str, searchTokensInIndex st now keys =
          searchTokensInIndex (fun k' => if k' = key then none else st k') now keys) ∧
    (∀ (H : Str → Str) (st : PgStore) (now : Nat) (key : Str) (row : PgRow),
        st key = some row → row.retention_until < now →
        ∀ (fieldName op q : Str) (k : Nat), dbSearch H st now fieldName op q k =
          dbSearch H (fun k' => if k' = key then none else st k') now fieldName op q k) := by
  have lookup_eq : ∀ (st : PgStore) (now : Nat) (key : Str) (row : PgRow),
      st key = some row → row.retention_until < now →
      ∀ keys : List Str, searchTokensInIndex st now keys =
        searchTokensInIndex (fun k' => if k' = key then none else st k') now keys := by
    intro st now key row hrow hexp keys
    unfold searchTokensInIndex
    congr 1
    apply List.flatMap_congr
    intro k _
    by_cases hk : k = key
    · subst hk
      have hlt : ¬ now < row.retention_until := by omega
      simp [hrow, hlt]
    · simp [hk]
  refine ⟨?_, lookup_eq, ?_⟩
  · intro st now keys t ht
    unfold searchTokensInIndex at ht
    rw [List.mem_dedup, List.mem_flatMap] at ht
    rcases ht with ⟨key, hkey, hmem⟩
    refine ⟨key, hkey, ?_⟩
    cases hrow : st key with
    | none => rw [hrow] at hmem; simp at hmem
    | some row =>
        rw [hrow] at hmem
        have hmem' : t ∈ (if now < row.retention_until then parseTokens row.token_set
            else []) := hmem
        by_cases hret : now < row.retention_until
        · rw [if_pos hret] at hmem'
          exact ⟨row, rfl, hret, hmem'⟩
        · rw [if_neg hret] at hmem'
          simp at hmem'
  · intro H st now key row hrow hexp fieldName op q k
    unfold dbSearch
    simp only [lookup_eq st now key row hrow hexp]

/-- Witness for C6 at a concrete expired row: at time 1000, a row whose
retention expired at time 5 is invisible — the lookup equals the lookup on
the store with the row deleted. -/
theorem claim_C6_retention_witness :
    searchTokensInIndex
        (fun k => if k = ("k0").data then some ⟨("T9").data, ("EMAIL").data, 5⟩ else none)
        1000 [("k0").data]
      = searchTokensInIndex
        (fun k' => if k' = ("k0").data then none
          else (fun k => if k = ("k0").data then some ⟨("T9").data, ("EMAIL").data, 5⟩
            else none) k')
        1000 [("k0").data] := by
  exact claim_C6_retention.2.1
    (fun k => if k = ("k0").data then some ⟨("T9").data, ("EMAIL").data, 5⟩ else none)
    1000 (("k0").data) ⟨("T9").data, ("EMAIL").data, 5⟩ (by decide) (by decide) [("k0").data]

/-! ## Claim C3 — k-anonymity gate -/

instance exceptDecEq {ε α : Type} [DecidableEq ε] [DecidableEq α] :
    DecidableEq (Except ε α)
  | .ok a, .ok b =>
      if h : a = b then .isTrue (by rw [h]) else .isFalse (by intro he; cases he; exact h rfl)
  | .ok _, .error _ => .isFalse (by intro he; cases he)
  | .error _, .ok _ => .isFalse (by intro he; cases he)
  | .error e, .error f =>
      if h : e = f then .isTrue (by rw [h]) else .isFalse (by intro he; cases he; exact h rfl)

/-- Case analysis of the raw gate expression of `performSearch`. -/
theorem kGate_cases (tokens : List Str) (kmin : Nat) :
    (0 < tokens.length → tokens.length < kmin →
        (if kmin ≤ tokens.length then tokens else []) = [] ∧
        (decide (0 < tokens.length) &&
          (if kmin ≤ tokens.length then tokens else []).isEmpty) = true) ∧
    (tokens.length = 0 →
        (if kmin ≤ tokens.length then tokens else []) = [] ∧
        (decide (0 < tokens.length) &&
          (if kmin ≤ tokens.length then tokens else []).isEmpty) = false) ∧
    (kmin ≤ tokens.length →
        (if kmin ≤ tokens.length then tokens else []) = tokens ∧
        (decide (0 < tokens.length) &&
          (if kmin ≤ tokens.length then tokens else []).isEmpty) = false) := by
  refine ⟨?_, ?_, ?_⟩
  · intro h1 h2
    rw [if_neg (by omega)]
    refine ⟨rfl, ?_⟩
    simp [h1]
  · intro h0
    have hnil : tokens = [] := List.length_eq_zero.mp h0
    subst hnil
    simp
  · intro hge
    rw [if_pos hge]
    refine ⟨rfl, ?_⟩
    cases tokens with
    | nil => simp
    | cons a l => simp

/-- C3 amended: the k-anonymity gate lives on the single-predicate
`performSearch` path (not after Boolean composition).  For every successful
`performSearch` with threshold `minResultSize`: a result count `n` with
`0 < n < minResultSize` yields an empty token list with
`kAnonymityApplied = true`; `n = 0` yields the empty list with the flag
unset; `n ≥ minResultSize` passes the full list through with the flag
unset. -/
theorem claim_C3_kanonymity_gate (H : Str → Str) (cfg : SearchConfig) (st : PgStore)
    (now : Nat) (query fieldType queryType : Str) (resp : SearchResponse)
    (h : performSearch H cfg st now query fieldType queryType = .ok resp) :
    (0 < resp.resultCount → resp.resultCount < cfg.minResultSize →
        resp.tokens = [] ∧ resp.kAnonymityApplied = true) ∧
    (resp.resultCount = 0 → resp.tokens = [] ∧ resp.kAnonymityApplied = false) ∧
    (cfg.minResultSize ≤ resp.resultCount →
        resp.tokens = dbSearch H st now fieldType (mapQueryType queryType) query 3 ∧
        resp.kAnonymityApplied = false) := by
  unfold performSearch at h
  by_cases hq : query.isEmpty ∨ query.length < cfg.minQueryLength
  · rw [if_pos hq] at h
    cases h
  · rw [if_neg hq] at h
    simp only [Except.ok.injEq] at h
    subst h
    exact kGate_cases (dbSearch H st now fieldType (mapQueryType queryType) query 3)
      cfg.minResultSize

/-- Witness for C3 at a concrete input: on the empty table, a
`CITY equals "mum"` search returns zero results, unsuppressed. -/
theorem claim_C3_kanonymity_gate_witness :
    (SearchResponse.mk [] 0 0 false).tokens = [] ∧
    (SearchResponse.mk [] 0 0 false).kAnonymityApplied = false := by
  have h := claim_C3_kanonymity_gate (fun s => s) ⟨5, 2⟩ emptyPg 0
    (("mum").data) (("CITY").data) (("equals").data) (SearchResponse.mk [] 0 0 false)
    (by decide)
  exact h.2.1 (by decide)

/-- Counterexample for C3 as stated: `executeComplexQuery` — the Boolean
composition path — applies no k-anonymity gate and carries no suppression
flag.  With one record indexed under `CITY="mum"`, the composed result has
cardinality 1 (strictly between 0 and the default threshold of 5), yet the
full token list is returned. -/
theorem claim_C3_counterexample :
    executeComplexQuery (fun s => s)
        (dbIndexFieldValue (fun s => s) emptyPg 0 (("CITY").data) (("mum").data)
          (("T1").data))
        0 [⟨("CITY").data, ("equals").data, ("mum").data⟩] (("AND").data)
      = .ok [("T1").data] := by
  decide

/-! ## Claim C7 — invalid-input handling -/

/-- C7 amended: the evaluator does NOT fail fast on invalid input.  A field
name outside the closed field map is translated to its lowercased form and
the search proceeds against the store; an operator outside
`{eq, startsWith, endsWith}` falls through `keysFor` to the contains
(k-gram) branch, so unknown operators are executed as `contains`. -/
theorem claim_C7_no_rejection :
    (∀ fieldName : Str, fieldMap (fieldName.map jsUpper) = none →
        getFieldAlias fieldName = fieldName.map jsLower) ∧
    (∀ (H : Str → Str) (field op q : Str) (k : Nat),
        op ≠ ("eq").data → op ≠ ("startsWith").data → op ≠ ("endsWith").data →
        keysFor H field op q k = keysFor H field (("contains").data) q k) := by
  constructor
  · intro fieldName h
    unfold getFieldAlias
    rw [h]
  · intro H field op q k h1 h2 h3
    have c1 : ¬ (("contains").data = ("eq").data) := by decide
    have c2 : ¬ (("contains").data = ("startsWith").data) := by decide
    have c3 : ¬ (("contains").data = ("endsWith").data) := by decide
    unfold keysFor
    rw [if_neg h1, if_neg h2, if_neg h3, if_neg c1, if_neg c2, if_neg c3]

/-- Witness for C7 at concrete inputs: the unknown field `NOT_A_FIELD` maps
to alias `not_a_field`, and the unknown operator `frobnicate` derives the
same keys as `contains`. -/
theorem claim_C7_no_rejection_witness :
    getFieldAlias (("NOT_A_FIELD").data) = (("NOT_A_FIELD").data).map jsLower ∧
    keysFor (fun s => s) (("email").data) (("frobnicate").data) (("abc").data) 3 =
      keysFor (fun s => s) (("email").data) (("contains").data) (("abc").data) 3 := by
  have h := claim_C7_no_rejection
  exact ⟨h.1 (("NOT_A_FIELD").data) (by decide),
    h.2 (fun s => s) (("email").data) (("frobnicate").data) (("abc").data) 3
      (by decide) (by decide) (by decide)⟩

/-- Counterexample for C7 as stated: searching an unknown field returns a
normal (non-error) result backed by real store lookups — indexing under the
unknown field `NOT_A_FIELD` and then querying it yields the token — and an
unknown operator (`frobnicate`) likewise executes as a contains search and
returns the token. -/
theorem claim_C7_counterexample :
    redisSearch (fun s => s)
        (indexFieldValue (fun s => s) emptyRedis (("NOT_A_FIELD").data) (("ab").data)
          (("T1").data) 3)
        (("NOT_A_FIELD").data) (("eq").data) (("ab").data) 3 = [("T1").data] ∧
    redisSearch (fun s => s)
        (indexFieldValue (fun s => s) emptyRedis (("EMAIL").data) (("abc").data)
          (("T1").data) 3)
        (("EMAIL").data) (("frobnicate").data) (("abc").data) 3 = [("T1").data] := by
  decide

/-! ## Claim C2 — coverage -/

theorem mem_generateAll_eq (H : Str → Str) (field value : Str) :
    mkKey field (("eq").data) (H (hmsg field (normalize value)))
      ∈ generateAllIndexKeys H field value 3 := by
  unfold generateAllIndexKeys
  simp

theorem mem_generateAll_pre (H : Str → Str) (field value : Str) (i : Nat)
    (h1 : 1 ≤ i) (h2 : i ≤ (normalize value).length) :
    mkKey field (("pre").data) (H (hmsg field ((normalize value).take i)))
      ∈ generateAllIndexKeys H field value 3 := by
  have hm : mkKey field (("pre").data) (H (hmsg field ((normalize value).take i)))
      ∈ (List.range' 1 (normalize value).length).map
        (fun j => mkKey field (("pre").data) (H (hmsg field ((normalize value).take j)))) := by
    refine List.mem_map.mpr ⟨i, ?_, rfl⟩
    rw [List.mem_range']
    exact ⟨i - 1, by omega, by omega⟩
  unfold generateAllIndexKeys
  simp [hm]

theorem mem_generateAll_suf (H : Str → Str) (field value : Str) (i : Nat)
    (h1 : 1 ≤ i) (h2 : i ≤ (normalize value).length) :
    mkKey field (("suf").data) (H (hmsg field ((normalize value).reverse.take i)))
      ∈ generateAllIndexKeys H field value 3 := by
  have hm : mkKey field (("suf").data) (H (hmsg field ((normalize value).reverse.take i)))
      ∈ (List.range' 1 (normalize value).reverse.length).map
        (fun j => mkKey field (("suf").data)
          (H (hmsg field ((normalize value).reverse.take j)))) := by
    refine List.mem_map.mpr ⟨i, ?_, rfl⟩
    rw [List.mem_range']
    exact ⟨i - 1, by rw [List.length_reverse]; omega, by omega⟩
  unfold generateAllIndexKeys
  exact List.mem_append_left _ (List.mem_append_right _ hm)

theorem mem_generateAll_gram (H : Str → Str) (field value : Str) (j : Nat)
    (hj : j + 3 ≤ (normalize value).length) :
    mkKey field (gTag 3) (H (hmsg field (((normalize value).drop j).take 3)))
      ∈ generateAllIndexKeys H field value 3 := by
  have hm : mkKey field (gTag 3) (H (hmsg field (((normalize value).drop j).take 3)))
      ∈ (List.range ((normalize value).length - 3 + 1)).map
        (fun i => mkKey field (gTag 3) (H (hmsg field (((normalize value).drop i).take 3)))) :=
    List.mem_map.mpr ⟨j, List.mem_range.mpr (by omega), rfl⟩
  have h3 : 3 ≤ (normalize value).length := by omega
  unfold generateAllIndexKeys
  simp [hm, h3]

/-- If every derived query key holds the token, the search returns it. -/
theorem mem_redisSearch_of_all {H : Str → Str} {st : RedisStore}
    {fieldName op query token : Str} {k : Nat}
    (hne : keysFor H (getFieldAlias fieldName) op query k ≠ [])
    (hall : ∀ key ∈ keysFor H (getFieldAlias fieldName) op query k, token ∈ st key) :
    token ∈ redisSearch H st fieldName op query k := by
  unfold redisSearch
  cases hk : keysFor H (getFieldAlias fieldName) op query k with
  | nil => exact absurd hk hne
  | cons k0 rest =>
      cases rest with
      | nil => exact hall k0 (by rw [hk]; simp)
      | cons k1 rest' =>
          show token ∈ sInter st (k0 :: k1 :: rest')
          unfold sInter
          rw [List.mem_filter]
          refine ⟨hall k0 (by rw [hk]; simp), ?_⟩
          rw [List.all_eq_true]
          intro k' hk'
          exact decide_eq_true (hall k' (by rw [hk]; exact List.mem_cons_of_mem k0 hk'))

/-- C2 amended: coverage holds with the query taken up to normalization —
`keysFor` normalizes the query before deriving keys.  After indexing
`(fieldName, value, token)` on the in-memory backend (over any prior store),
every query `(fieldName, op, q)` whose NORMALIZED form matches `normalize
value` under the §4.4 semantics (equal for `eq`; a non-empty prefix for
`startsWith`; a non-empty suffix for `endsWith`; a substring of length ≥ 3
for `contains`) returns a set containing `token`.  (As stated — with the raw
`q` a substring of length ≥ 3 — the claim fails: outer whitespace in `q` can
shrink `normalize q` below the 3-gram minimum, and the search returns the
empty set; see the counterexample.) -/
theorem claim_C2_coverage (H : Str → Str) (st : RedisStore)
    (fieldName value token q op : Str)
    (hmatch :
      (op = ("eq").data ∧ normalize q = normalize value ∧ normalize value ≠ []) ∨
      (op = ("startsWith").data ∧ normalize q ≠ [] ∧ normalize q <+: normalize value) ∨
      (op = ("endsWith").data ∧ normalize q ≠ [] ∧ normalize q <:+ normalize value) ∨
      (op = ("contains").data ∧ normalize q <:+: normalize value ∧
        3 ≤ (normalize q).length)) :
    token ∈ redisSearch H (indexFieldValue H st fieldName value token 3)
      fieldName op q 3 := by
  have hidx : ∀ key ∈ generateAllIndexKeys H (getFieldAlias fieldName) value 3,
      token ∈ (indexFieldValue H st fieldName value token 3) key := by
    intro key hk
    exact foldl_sAdd_mem _ st key hk
  rcases hmatch with ⟨hop, hq, hv⟩ | ⟨hop, hq, hpre⟩ | ⟨hop, hq, hsuf⟩ | ⟨hop, hinf, hlen⟩
  · subst hop
    apply mem_redisSearch_of_all (by unfold keysFor; simp)
    intro key hk
    unfold keysFor at hk
    rw [if_pos rfl] at hk
    simp only [List.mem_singleton] at hk
    subst hk
    rw [hq]
    exact hidx _ (mem_generateAll_eq H _ value)
  · subst hop
    apply mem_redisSearch_of_all (by unfold keysFor; simp)
    intro key hk
    unfold keysFor at hk
    rw [if_neg (by decide), if_pos rfl] at hk
    simp only [List.mem_singleton] at hk
    subst hk
    have htake : normalize q = (normalize value).take (normalize q).length :=
      List.prefix_iff_eq_take.mp hpre
    rw [htake]
    exact hidx _ (mem_generateAll_pre H _ value (normalize q).length
      (by cases hq' : normalize q with
          | nil => exact absurd hq' hq
          | cons a l => simp [hq'])
      hpre.length_le)
  · subst hop
    apply mem_redisSearch_of_all (by unfold keysFor; simp)
    intro key hk
    unfold keysFor at hk
    rw [if_neg (by decide), if_neg (by decide), if_pos rfl] at hk
    simp only [List.mem_singleton] at hk
    subst hk
    have hpre : (normalize q).reverse <+: (normalize value).reverse :=
      List.reverse_prefix.mpr hsuf
    have htake : (normalize q).reverse =
        (normalize value).reverse.take ((normalize q).reverse).length :=
      List.prefix_iff_eq_take.mp hpre
    rw [htake]
    have hlen : ((normalize q).reverse).length ≤ (normalize value).length := by
      have := hpre.length_le
      simpa using this
    exact hidx _ (mem_generateAll_suf H _ value ((normalize q).reverse).length
      (by cases hq' : normalize q with
          | nil => exact absurd hq' hq
          | cons a l => simp [hq'])
      hlen)
  · subst hop
    have hvlen : 3 ≤ (normalize value).length := by
      have := hinf.length_le
      omega
    apply mem_redisSearch_of_all
    · unfold keysFor
      rw [if_neg (by decide), if_neg (by decide), if_neg (by decide),
          if_neg (by omega)]
      intro hcon
      have := congrArg List.length hcon
      simp at this
    · intro key hk
      unfold keysFor at hk
      rw [if_neg (by decide), if_neg (by decide), if_neg (by decide),
          if_neg (by omega)] at hk
      simp only [List.mem_map, List.mem_range] at hk
      rcases hk with ⟨i, hi, hkey⟩
      subst hkey
      rcases hinf with ⟨a, b, hab⟩
      have hgram : ((normalize q).drop i).take 3 =
          ((normalize value).drop (a.length + i)).take 3 := by
        rw [← hab]
        rw [List.append_assoc, List.drop_append, List.drop_append_of_le_length (by omega),
            List.take_append_of_le_length (by simp; omega)]
      rw [hgram]
      exact hidx _ (mem_generateAll_gram H _ value (a.length + i) (by
        have hv : (normalize value).length = a.length + (normalize q).length + b.length := by
          rw [← hab]
          simp [List.length_append]
          all_goals omega
        omega))

/-- Witness for C2 at a concrete input: after indexing `EMAIL="Arjun"` as
`T2`, the query `(EMAIL, startsWith, "Ar")` returns a set containing `T2`. -/
theorem claim_C2_coverage_witness :
    (("T2").data) ∈ redisSearch (fun s => s)
      (indexFieldValue (fun s => s) emptyRedis (("EMAIL").data) (("Arjun").data)
        (("T2").data) 3)
      (("EMAIL").data) (("startsWith").data) (("Ar").data) 3 := by
  exact claim_C2_coverage (fun s => s) emptyRedis (("EMAIL").data) (("Arjun").data)
    (("T2").data) (("Ar").data) (("startsWith").data)
    (Or.inr (Or.inl ⟨rfl, by decide, by decide⟩))

/-- Counterexample for C2 as stated: `" bc"` is a substring of the normalized
value `"a bc"` of length 3 ≥ K, yet `(EMAIL, contains, " bc")` returns the
empty set after indexing — the query is normalized first, `normalize " bc" =
"bc"` has length 2 < 3, and `keysFor` yields no keys. -/
theorem claim_C2_counterexample :
    ((" bc").data <:+: normalize (("a bc").data)) ∧
    ((" bc").data).length = 3 ∧
    (" bc").data ≠ [] ∧
    ¬ (("T1").data ∈ redisSearch (fun s => s)
        (indexFieldValue (fun s => s) emptyRedis (("EMAIL").data) (("a bc").data)
          (("T1").data) 3)
        (("EMAIL").data) (("contains").data) ((" bc").data) 3) := by
  decide

/-! ## splitComma / parseTokens lemmas -/

theorem splitComma_ne_nil (s : Str) : splitComma s ≠ [] := by
  cases s with
  | nil => simp [splitComma]
  | cons c cs =>
      unfold splitComma
      by_cases hc : c = ','
      · simp [hc]
      · rw [if_neg hc]
        cases splitComma cs <;> simp

theorem splitComma_append_cons (a b : Str) :
    splitComma (a ++ ',' :: b) = splitComma a ++ splitComma b := by
  induction a with
  | nil => simp [splitComma]
  | cons c cs ih =>
      by_cases hc : c = ','
      · subst hc
        rw [List.cons_append]
        simp [splitComma, ih]
      · rw [List.cons_append]
        simp only [splitComma, if_neg hc]
        rw [ih]
        cases hcs : splitComma cs with
        | nil => exact absurd hcs (splitComma_ne_nil cs)
        | cons h t => simp

theorem splitComma_no_comma {s : Str} (h : ',' ∉ s) : splitComma s = [s] := by
  induction s with
  | nil => rfl
  | cons c cs ih =>
      unfold splitComma
      rw [if_neg (by intro hc; exact h (by simp [hc]))]
      rw [ih (by intro hc; exact h (by simp [hc]))]

/-- A reference that round-trips through the relational posting-string
encoding: non-empty, comma-free and already trimmed (the read path splits on
commas, trims each piece and drops empties), and free of the LIKE
metacharacters `%`, `_` and the default escape `\` (the write path splices
the reference into a `LIKE` pattern).  Note that the repository's own tokens
(`TKN_..._FIELD_NAME`, and base64url output) contain `_` and violate this. -/
def goodRef (t : Str) : Prop :=
  t ≠ [] ∧ ',' ∉ t ∧ trim t = t ∧ '%' ∉ t ∧ '_' ∉ t ∧ '\\' ∉ t

instance (t : Str) : Decidable (goodRef t) :=
  decidable_of_iff
    (t ≠ [] ∧ ',' ∉ t ∧ trim t = t ∧ '%' ∉ t ∧ '_' ∉ t ∧ '\\' ∉ t) Iff.rfl

theorem parseTokens_single {t : Str} (h : goodRef t) : parseTokens t = [t] := by
  rcases h with ⟨hne, hcomma, htrim, _, _, _⟩
  unfold parseTokens
  rw [splitComma_no_comma hcomma]
  simp [htrim, hne]

theorem parseTokens_append_cons (a b : Str) :
    parseTokens (a ++ ',' :: b) = parseTokens a ++ parseTokens b := by
  unfold parseTokens
  rw [splitComma_append_cons, List.map_append, List.filter_append]

/-! ### SQL LIKE lemmas -/

theorem likeMatch_pct (p t : Str) :
    likeMatch ('%' :: p) t = (t.tails).any (fun t' => likeMatch p t') := by
  simp [likeMatch]

theorem likeMatch_char_nil (c : Char) (p : Str) (hc : c ≠ '%') :
    likeMatch (c :: p) [] = false := by
  simp only [likeMatch, if_neg hc]

theorem likeMatch_char_cons (c : Char) (p : Str) (hc : c ≠ '%') (d : Char) (t' : Str) :
    likeMatch (c :: p) (d :: t') = ((c = '_' || c = d) && likeMatch p t') := by
  simp only [likeMatch, if_neg hc]

/-- A wildcard-free pattern followed by a single `%` LIKE-matches a text
exactly when it is a prefix of it. -/
theorem likeMatch_lit : ∀ pat : Str, '%' ∉ pat → '_' ∉ pat →
    ∀ t : Str, (likeMatch (pat ++ ['%']) t = true ↔ pat <+: t) := by
  intro pat
  induction pat with
  | nil =>
      intro _ _ t
      rw [List.nil_append, likeMatch_pct]
      constructor
      · intro _
        exact List.nil_prefix
      · intro _
        rw [List.any_eq_true]
        exact ⟨[], (List.mem_tails _ _).mpr List.nil_suffix, rfl⟩
  | cons c pat ih =>
      intro h1 h2 t
      have hc : c ≠ '%' := fun h => h1 (by simp [h])
      have hcu : c ≠ '_' := fun h => h2 (by simp [h])
      have ih' := ih (fun h => h1 (by simp [h])) (fun h => h2 (by simp [h]))
      cases t with
      | nil =>
          rw [List.cons_append, likeMatch_char_nil c _ hc]
          simp
      | cons d t' =>
          rw [List.cons_append, likeMatch_char_cons c _ hc d t', Bool.and_eq_true,
              List.cons_prefix_cons]
          constructor
          · rintro ⟨hcd, hrec⟩
            simp only [Bool.or_eq_true, decide_eq_true_eq] at hcd
            rcases hcd with h' | h'
            · exact absurd h' hcu
            · exact ⟨h', (ih' t').mp hrec⟩
          · rintro ⟨hcd, hpre⟩
            refine ⟨?_, (ih' t').mpr hpre⟩
            simp [hcd]

/-- For a pattern free of LIKE wildcards, `'%'||pat||'%'` matching degenerates
to substring containment.  (For patterns CONTAINING wildcards it does not:
`'ab' LIKE '%a_%'` holds although `a_` is no substring of `ab`.) -/
theorem sqlLike_eq_isInf {pat : Str} (h1 : '%' ∉ pat) (h2 : '_' ∉ pat) (hay : Str) :
    (sqlLike hay pat = true ↔ pat <:+: hay) := by
  unfold sqlLike
  rw [likeMatch_pct, List.any_eq_true]
  constructor
  · rintro ⟨t', ht', hm⟩
    have hsuf : t' <:+ hay := (List.mem_tails _ _).mp ht'
    have hpre : pat <+: t' := (likeMatch_lit pat h1 h2 t').mp hm
    exact hpre.isInfix.trans hsuf.isInfix
  · intro h
    rcases List.infix_iff_prefix_suffix.mp h with ⟨t', hpre, hsuf⟩
    exact ⟨t', (List.mem_tails _ _).mpr hsuf, (likeMatch_lit pat h1 h2 t').mpr hpre⟩

/-! ## Claim C4 — store add contract -/

/-- C4 amended: `addTokenToIndex(key, ref, field-tag, expires-at)` creates the
entry `(ref-as-posting-string, field-tag, expires-at-or-now+1y)` when the key
is absent; when the key exists it always raises `retention_until` to the later
of old and new and never touches `field_type`, but the posting string is
updated by a `LIKE` test with the reference spliced into the pattern: the
string is left unchanged whenever `token_set LIKE '%'||ref||'%'` holds —
which is substring containment only for refs free of the `%`/`_` wildcards
(e.g. a stored `ab` LIKE-matches the ref `a_`) — and `',' || ref` is appended
otherwise.  So `ref` is guaranteed to end up in the parsed posting list only
when the LIKE test fails; for a wildcard-free ref that means: only when it is
not a substring of the stored string.  No other entry changes. -/
theorem claim_C4_add_contract (st : PgStore) (now : Nat) (key tok ft : Str)
    (ret : Option Nat) :
    (∀ k', k' ≠ key → addTokenToIndex st now key tok ft ret k' = st k') ∧
    (st key = none →
        addTokenToIndex st now key tok ft ret key =
          some (PgRow.mk tok ft (ret.getD (now + yearMs)))) ∧
    (∀ row, st key = some row →
        addTokenToIndex st now key tok ft ret key =
          some (PgRow.mk
            (if sqlLike row.token_set tok then row.token_set
             else row.token_set ++ ',' :: tok)
            row.field_type
            (max row.retention_until (ret.getD (now + yearMs))))) ∧
    (∀ row, st key = some row → sqlLike row.token_set tok = false → goodRef tok →
        tok ∈ parseTokens
          (if sqlLike row.token_set tok then row.token_set
           else row.token_set ++ ',' :: tok)) ∧
    ('%' ∉ tok → '_' ∉ tok → '\\' ∉ tok →
        ∀ ts : Str, (sqlLike ts tok = true ↔ tok <:+: ts)) := by
  refine ⟨?_, ?_, ?_, ?_, ?_⟩
  · intro k' hk'
    unfold addTokenToIndex
    rw [if_neg hk']
  · intro hnone
    unfold addTokenToIndex
    rw [if_pos rfl, hnone]
  · intro row hrow
    unfold addTokenToIndex
    rw [if_pos rfl, hrow]
  · intro row hrow hlike hgood
    rw [if_neg (by simp [hlike])]
    rw [parseTokens_append_cons, parseTokens_single hgood]
    simp
  · intro hp hu _ ts
    exact sqlLike_eq_isInf hp hu ts

/-- Witness for C4 at concrete inputs: creating a fresh entry; appending `T2`
to an entry holding `T11` (the LIKE check fails), after which `T2` is in the
parsed posting list; and the LIKE check coinciding with substring containment
for the wildcard-free ref `T2`. -/
theorem claim_C4_add_contract_witness :
    (addTokenToIndex emptyPg 0 (("k0").data) (("T1").data) (("EMAIL").data) none
        (("k0").data)
      = some (PgRow.mk (("T1").data) (("EMAIL").data) (Option.getD none (0 + yearMs)))) ∧
    (("T2").data ∈ parseTokens
      (if sqlLike (("T11").data) (("T2").data) then ("T11").data
       else ("T11").data ++ ',' :: ("T2").data)) ∧
    (sqlLike (("T11").data) (("T2").data) = true ↔ ("T2").data <:+: ("T11").data) := by
  refine ⟨?_, ?_, ?_⟩
  · exact (claim_C4_add_contract emptyPg 0 (("k0").data) (("T1").data) (("EMAIL").data)
      none).2.1 rfl
  · exact (claim_C4_add_contract
      (fun k => if k = ("k0").data then some (PgRow.mk (("T11").data) (("EMAIL").data) 100)
        else none)
      0 (("k0").data) (("T2").data) (("EMAIL").data) none).2.2.2.1
      (PgRow.mk (("T11").data) (("EMAIL").data) 100) (by decide) (by decide) (by decide)
  · exact (claim_C4_add_contract emptyPg 0 (("k0").data) (("T2").data) (("EMAIL").data)
      none).2.2.2.2 (by decide) (by decide) (by decide) (("T11").data)

/-- Counterexample for C4 as stated: the `ON CONFLICT` duplicate check is
`token_set LIKE '%'||ref||'%'`, not set membership.  Adding `T1` to an entry
whose posting string is `T11` leaves the string unchanged (`T1` is a
substring of `T11`), so the posting list does not contain `T1`; and the
wildcards are live — adding `a_` to an entry holding `ab` is also dropped
(`'ab' LIKE '%a_%'` holds, `_` matching `b`) although `a_` is not even a
substring of `ab`. -/
theorem claim_C4_counterexample :
    ((addTokenToIndex
        (fun k => if k = ("k0").data then some (PgRow.mk (("T11").data) (("EMAIL").data) 100)
          else none)
        0 (("k0").data) (("T1").data) (("EMAIL").data) none) (("k0").data)
      = some (PgRow.mk (("T11").data) (("EMAIL").data) yearMs)) ∧
    ¬ (("T1").data ∈ parseTokens (("T11").data)) ∧
    ((addTokenToIndex
        (fun k => if k = ("k0").data then some (PgRow.mk (("ab").data) (("EMAIL").data) 100)
          else none)
        0 (("k0").data) (("a_").data) (("EMAIL").data) none) (("k0").data)
      = some (PgRow.mk (("ab").data) (("EMAIL").data) yearMs)) ∧
    ¬ (("a_").data <:+: ("ab").data) ∧
    ¬ (("a_").data ∈ parseTokens (("ab").data)) := by
  decide

/-! ## Claim C1 — backend equivalence -/

/-- One indexing operation `(fieldName, value, token)`, applied through
`FieldAwareRedisIndexer.indexFieldValue` on the in-memory backend and
`PIIDatabaseSearchIndexer.indexFieldValue` (one `addTokenToIndex` per
generated key) on the relational backend. -/
structure IndexOp where
  fieldName : Str
  value : Str
  token : Str

/-- Run a sequence of indexing operations on the in-memory backend. -/
def runRedis (H : Str → Str) (ops : List IndexOp) : RedisStore :=
  ops.foldl (fun st op => indexFieldValue H st op.fieldName op.value op.token 3) emptyRedis

/-- Run the same sequence on the relational backend (all at time `now`). -/
def runDB (H : Str → Str) (now : Nat) (ops : List IndexOp) : PgStore :=
  ops.foldl (fun st op => dbIndexFieldValue H st now op.fieldName op.value op.token) emptyPg

/-- The comma-joined encoding of a posting list, as `addTokenToIndex` builds
it (`token_set || ',' || token`). -/
def commaJoin : List Str → Str
  | [] => []
  | [x] => x
  | x :: y :: xs => x ++ ',' :: commaJoin (y :: xs)

theorem commaJoin_snoc {L : List Str} (tok : Str) (h : L ≠ []) :
    commaJoin (L ++ [tok]) = commaJoin L ++ ',' :: tok := by
  induction L with
  | nil => exact absurd rfl h
  | cons x xs ih =>
      cases xs with
      | nil => rfl
      | cons y ys =>
          show commaJoin (x :: ((y :: ys) ++ [tok])) = (x ++ ',' :: commaJoin (y :: ys)) ++ ',' :: tok
          have : commaJoin (x :: ((y :: ys) ++ [tok])) =
              x ++ ',' :: commaJoin ((y :: ys) ++ [tok]) := rfl
          rw [this, ih (by simp), List.append_assoc]
          rfl

/-- A comma-free pattern that is a substring of `a ++ c :: b` (with `c` not in
the pattern) is a substring of `a` or of `b`. -/
theorem isInf_split {t a b : Str} {c : Char} (hc : c ∉ t)
    (h : t <:+: a ++ c :: b) : t <:+: a ∨ t <:+: b := by
  rcases h with ⟨s, e, hse⟩
  by_cases h1 : s.length + t.length ≤ a.length
  · left
    have htake : (s ++ t ++ e).take (s.length + t.length) = s ++ t := by
      rw [List.append_assoc, List.take_append, List.take_left]
    have htake2 : (a ++ c :: b).take (s.length + t.length) = a.take (s.length + t.length) :=
      List.take_append_of_le_length h1
    rw [hse] at htake
    refine ⟨s, a.drop (s.length + t.length), ?_⟩
    have hsplit := List.take_append_drop (s.length + t.length) a
    conv_rhs => rw [← hsplit]
    rw [← htake2, htake]
  · by_cases h2 : a.length + 1 ≤ s.length
    · right
      have hdrop : (s ++ t ++ e).drop (a.length + 1) = s.drop (a.length + 1) ++ t ++ e := by
        rw [List.append_assoc, List.drop_append_of_le_length h2, List.append_assoc]
      have hdrop2 : (a ++ c :: b).drop (a.length + 1) = b := by
        rw [List.drop_append]
        rfl
      rw [hse, hdrop2] at hdrop
      exact ⟨s.drop (a.length + 1), e, hdrop.symm⟩
    · exfalso
      apply hc
      have hs : s.length ≤ a.length := by omega
      have hlt : a.length - s.length < t.length := by omega
      have hq1 : (a ++ c :: b)[a.length]? = some c := by
        rw [List.getElem?_append_right (le_refl _)]
        simp
      have hq2 : (s ++ t ++ e)[a.length]? = t[a.length - s.length]? := by
        rw [List.append_assoc, List.getElem?_append_right hs, List.getElem?_append,
            if_pos hlt]
      have hq3 : t[a.length - s.length]? = some c := by
        rw [← hq2, hse, hq1]
      rcases List.getElem?_eq_some.mp hq3 with ⟨hj, hval⟩
      rw [← hval]
      exact List.getElem_mem hj

/-- A comma-free non-empty string is a substring of a comma-join exactly when
it is a substring of one of the joined elements. -/
theorem isInf_commaJoin {t : Str} {L : List Str} (hc : ',' ∉ t)
    (h : t <:+: commaJoin L) : t = [] ∨ ∃ x ∈ L, t <:+: x := by
  induction L with
  | nil =>
      left
      have := List.eq_nil_of_infix_nil h
      exact this
  | cons x xs ih =>
      cases xs with
      | nil =>
          right
          exact ⟨x, by simp, h⟩
      | cons y ys =>
          have hsplit : t <:+: x ∨ t <:+: commaJoin (y :: ys) := isInf_split hc h
          rcases hsplit with h' | h'
          · right
            exact ⟨x, by simp, h'⟩
          · rcases ih h' with h'' | ⟨z, hz, hzin⟩
            · left; exact h''
            · right
              exact ⟨z, by simp [hz], hzin⟩

theorem mem_isInf_commaJoin {t : Str} {L : List Str} (h : t ∈ L) :
    t <:+: commaJoin L := by
  induction L with
  | nil => simp at h
  | cons x xs ih =>
      cases xs with
      | nil =>
          simp at h
          subst h
          exact List.infix_rfl
      | cons y ys =>
          rcases List.mem_cons.mp h with h' | h'
          · subst h'
            show t <:+: t ++ ',' :: commaJoin (y :: ys)
            exact ⟨[], ',' :: commaJoin (y :: ys), by simp⟩
          · have := ih h'
            rcases this with ⟨s, e, hse⟩
            show t <:+: x ++ ',' :: commaJoin (y :: ys)
            exact ⟨x ++ ',' :: s, e, by rw [← hse]; simp⟩

theorem parseTokens_commaJoin {L : List Str} (hgood : ∀ x ∈ L, goodRef x)
    (hne : L ≠ []) : parseTokens (commaJoin L) = L := by
  induction L with
  | nil => exact absurd rfl hne
  | cons x xs ih =>
      cases xs with
      | nil => exact parseTokens_single (hgood x (by simp))
      | cons y ys =>
          show parseTokens (x ++ ',' :: commaJoin (y :: ys)) = x :: y :: ys
          rw [parseTokens_append_cons, parseTokens_single (hgood x (by simp)),
              ih (fun z hz => hgood z (by simp [hz])) (by simp)]
          rfl

/-- Reference sets a run may use: every reference well-formed, and no
reference a substring of a different one. -/
def goodSet (G : List Str) : Prop :=
  (∀ t ∈ G, goodRef t) ∧ ∀ t s, t ∈ G → s ∈ G → t <:+: s → t = s

theorem like_iff_mem {G : List Str} {tok : Str} {L : List Str}
    (hG : goodSet G) (htok : tok ∈ G) (hL : ∀ x ∈ L, x ∈ G) :
    sqlLike (commaJoin L) tok = true ↔ tok ∈ L := by
  rw [sqlLike_eq_isInf (hG.1 tok htok).2.2.2.1 (hG.1 tok htok).2.2.2.2.1]
  constructor
  · intro h
    rcases isInf_commaJoin (hG.1 tok htok).2.1 h with h' | ⟨x, hx, hin⟩
    · exact absurd h' (hG.1 tok htok).1
    · have := hG.2 tok x htok (hL x hx) hin
      rw [this]
      exact hx
  · exact mem_isInf_commaJoin

/-- Pointwise store-update equations. -/
theorem sAdd_ne {mem : RedisStore} {key tok k' : Str} (h : k' ≠ key) :
    sAdd mem key tok k' = mem k' := by
  unfold sAdd
  rw [if_neg h]

theorem sAdd_self (mem : RedisStore) (key tok : Str) :
    sAdd mem key tok key = if tok ∈ mem key then mem key else mem key ++ [tok] := by
  unfold sAdd
  rw [if_pos rfl]

theorem addToken_ne {db : PgStore} {now : Nat} {key tok ft : Str} {ret : Option Nat}
    {k' : Str} (h : k' ≠ key) : addTokenToIndex db now key tok ft ret k' = db k' := by
  unfold addTokenToIndex
  rw [if_neg h]

theorem addToken_self_none {db : PgStore} (now : Nat) (key tok ft : Str) (ret : Option Nat)
    (h : db key = none) :
    addTokenToIndex db now key tok ft ret key =
      some (PgRow.mk tok ft (ret.getD (now + yearMs))) := by
  unfold addTokenToIndex
  rw [if_pos rfl, h]

theorem addToken_self_some {db : PgStore} (now : Nat) (key tok ft : Str) (ret : Option Nat)
    (ts ft0 : Str) (r0 : Nat) (h : db key = some (PgRow.mk ts ft0 r0)) :
    addTokenToIndex db now key tok ft ret key =
      some (PgRow.mk (if sqlLike ts tok then ts else ts ++ ',' :: tok) ft0
        (max r0 (ret.getD (now + yearMs)))) := by
  unfold addTokenToIndex
  rw [if_pos rfl, h]

/-- The cross-backend invariant, per key: either the key is absent on both
backends, or the relational row holds exactly the comma-join of the in-memory
set, with full retention, and every stored reference comes from the run's
reference universe `G`. -/
def InvKey (G : List Str) (now : Nat) (mem : RedisStore) (db : PgStore) (key : Str) : Prop :=
  (db key = none ∧ mem key = []) ∨
  (∃ ft, db key = some (PgRow.mk (commaJoin (mem key)) ft (now + yearMs)) ∧
    mem key ≠ [] ∧ ∀ x ∈ mem key, x ∈ G)

theorem InvKey_add {G : List Str} {now : Nat} {mem : RedisStore} {db : PgStore}
    (hG : goodSet G) {tok : Str} (htok : tok ∈ G) (ft : Str)
    (h : ∀ k, InvKey G now mem db k) (key : Str) :
    ∀ k, InvKey G now (sAdd mem key tok) (addTokenToIndex db now key tok ft none) k := by
  intro k
  by_cases hk : k = key
  · subst hk
    rcases h k with ⟨hdb, hmem⟩ | ⟨ft0, hdb, hne, hsub⟩
    · right
      refine ⟨ft, ?_, ?_, ?_⟩
      · rw [addToken_self_none now k tok ft none hdb, sAdd_self, hmem]
        simp [commaJoin]
      · rw [sAdd_self, hmem]
        simp
      · intro x hx
        rw [sAdd_self, hmem] at hx
        simp at hx
        subst hx
        exact htok
    · have hlike := like_iff_mem hG htok hsub
      right
      refine ⟨ft0, ?_, ?_, ?_⟩
      · rw [addToken_self_some now k tok ft none _ _ _ hdb, sAdd_self]
        by_cases hmemtok : tok ∈ mem k
        · rw [if_pos hmemtok, if_pos (hlike.mpr hmemtok)]
          simp
        · have hnotlike : ¬ (sqlLike (commaJoin (mem k)) tok = true) := by
            rw [hlike]
            exact hmemtok
          rw [if_neg hmemtok, if_neg hnotlike, commaJoin_snoc tok hne]
          simp
      · rw [sAdd_self]
        by_cases hmemtok : tok ∈ mem k
        · rw [if_pos hmemtok]
          exact hne
        · rw [if_neg hmemtok]
          simp
      · intro x hx
        rw [sAdd_self] at hx
        by_cases hmemtok : tok ∈ mem k
        · rw [if_pos hmemtok] at hx
          exact hsub x hx
        · rw [if_neg hmemtok] at hx
          rcases List.mem_append.mp hx with h' | h'
          · exact hsub x h'
          · simp at h'
            subst h'
            exact htok
  · rcases h k with ⟨hdb, hmem⟩ | ⟨ft0, hdb, hne, hsub⟩
    · left
      refine ⟨?_, ?_⟩
      · rw [addToken_ne hk]
        exact hdb
      · rw [sAdd_ne hk]
        exact hmem
    · right
      refine ⟨ft0, ?_, ?_, ?_⟩
      · rw [addToken_ne hk, sAdd_ne hk]
        exact hdb
      · rw [sAdd_ne hk]
        exact hne
      · rw [sAdd_ne hk]
        exact hsub

theorem Inv_foldl_keys {G : List Str} {now : Nat} (hG : goodSet G) {tok : Str}
    (htok : tok ∈ G) (ft : Str) (ks : List Str) {mem : RedisStore} {db : PgStore}
    (h : ∀ k, InvKey G now mem db k) :
    ∀ k, InvKey G now (ks.foldl (fun s key => sAdd s key tok) mem)
      (ks.foldl (fun s key => addTokenToIndex s now key tok ft none) db) k := by
  induction ks generalizing mem db with
  | nil => exact h
  | cons k0 rest ih => exact ih (InvKey_add hG htok ft h k0)

theorem Inv_run {G : List Str} {now : Nat} {H : Str → Str} (hG : goodSet G)
    (ops : List IndexOp) (hops : ∀ op ∈ ops, op.token ∈ G) {mem : RedisStore}
    {db : PgStore} (h : ∀ k, InvKey G now mem db k) :
    ∀ k, InvKey G now
      (ops.foldl (fun st op => indexFieldValue H st op.fieldName op.value op.token 3) mem)
      (ops.foldl (fun st op => dbIndexFieldValue H st now op.fieldName op.value op.token) db)
      k := by
  induction ops generalizing mem db with
  | nil => exact h
  | cons op rest ih =>
      apply ih (fun o ho => hops o (by simp [ho]))
      show ∀ k, InvKey G now (indexFieldValue H mem op.fieldName op.value op.token 3)
        (dbIndexFieldValue H db now op.fieldName op.value op.token) k
      unfold indexFieldValue dbIndexFieldValue
      exact Inv_foldl_keys hG (hops op (by simp)) op.fieldName _ h

theorem lookup_iff {G : List Str} {now : Nat} {mem : RedisStore} {db : PgStore}
    (hG : goodSet G) (h : ∀ k, InvKey G now mem db k) (key t : Str) :
    t ∈ searchTokensInIndex db now [key] ↔ t ∈ mem key := by
  unfold searchTokensInIndex
  simp only [List.flatMap_cons, List.flatMap_nil, List.append_nil]
  rcases h key with ⟨hdb, hmem⟩ | ⟨ft0, hdb, hne, hsub⟩
  · rw [hdb, hmem]
    simp
  · simp only [hdb]
    have hlt : now < now + yearMs := by
      have hy : (0 : Nat) < yearMs := by decide
      omega
    rw [if_pos hlt, parseTokens_commaJoin (fun x hx => hG.1 x (hsub x hx)) hne,
        List.mem_dedup]

/-- C1 amended: backend equivalence holds for reference sets that respect the
posting-string encoding: every reference non-empty, comma-free, trimmed and
free of the LIKE metacharacters `%`, `_`, `\` (the `ON CONFLICT` clause
splices the reference into a LIKE pattern), and no reference a substring of a
DIFFERENT reference.  Under these hypotheses, for any sequence of indexing
operations applied from the empty state with the same keyed hash, the
in-memory backend (`indexFieldValue`/`search`) and the relational backend
(`addTokenToIndex`-per-key/`search`) return the same result set for every
query `(field, op, q)` — in particular over the four operators
eq/startsWith/endsWith/contains.  (Without these conditions the LIKE-based
duplicate check drops references — a ref that is a substring of a stored one,
or, via the live wildcards, a ref like `a_` against a stored `ab`; the
repository's own `TKN_..._FIELD` and base64url tokens contain `_` and so
violate the hypotheses.  See the counterexample.) -/
theorem claim_C1_backend_equivalence (H : Str → Str) (now : Nat) (ops : List IndexOp)
    (hgood : ∀ op ∈ ops, goodRef op.token)
    (hsub : ∀ o1 ∈ ops, ∀ o2 ∈ ops, o1.token <:+: o2.token → o1.token = o2.token)
    (fieldName op q t : Str) :
    (t ∈ redisSearch H (runRedis H ops) fieldName op q 3 ↔
     t ∈ dbSearch H (runDB H now ops) now fieldName op q 3) := by
  have hGset : goodSet (ops.map (fun o => o.token)) := by
    constructor
    · intro x hx
      rcases List.mem_map.mp hx with ⟨o, ho, rfl⟩
      exact hgood o ho
    · intro x y hx hy hxy
      rcases List.mem_map.mp hx with ⟨o1, ho1, rfl⟩
      rcases List.mem_map.mp hy with ⟨o2, ho2, rfl⟩
      exact hsub o1 ho1 o2 ho2 hxy
  have hInv : ∀ k, InvKey (ops.map (fun o => o.token)) now
      (runRedis H ops) (runDB H now ops) k := by
    unfold runRedis runDB
    apply Inv_run hGset ops (fun o ho => List.mem_map.mpr ⟨o, ho, rfl⟩)
    intro k
    left
    exact ⟨rfl, rfl⟩
  have hlk : ∀ key t', t' ∈ searchTokensInIndex (runDB H now ops) now [key] ↔
      t' ∈ (runRedis H ops) key :=
    fun key t' => lookup_iff hGset hInv key t'
  unfold redisSearch dbSearch
  cases hK : keysFor H (getFieldAlias fieldName) op q 3 with
  | nil => simp
  | cons k0 rest =>
      cases rest with
      | nil => exact (hlk k0 t).symm
      | cons k1 rest' =>
          show t ∈ sInter (runRedis H ops) (k0 :: k1 :: rest') ↔ _
          unfold sInter
          rw [List.mem_filter, List.mem_filter]
          constructor
          · rintro ⟨h0, hall⟩
            refine ⟨(hlk k0 t).mpr h0, ?_⟩
            rw [List.all_eq_true] at hall ⊢
            intro k' hk'
            exact decide_eq_true ((hlk k' t).mpr (of_decide_eq_true (hall k' hk')))
          · rintro ⟨h0, hall⟩
            refine ⟨(hlk k0 t).mp h0, ?_⟩
            rw [List.all_eq_true] at hall ⊢
            intro k' hk'
            exact decide_eq_true ((hlk k' t).mp (of_decide_eq_true (hall k' hk')))

/-- Witness for C1 at a concrete input: two tokens `Ta`, `Tb` (no substring
relation) indexed under `EMAIL="ab"` on both backends; the `eq` query agrees
on membership of `Ta`. -/
theorem claim_C1_backend_equivalence_witness :
    (("Ta").data ∈ redisSearch (fun s => s)
        (runRedis (fun s => s)
          [⟨("EMAIL").data, ("ab").data, ("Ta").data⟩,
           ⟨("EMAIL").data, ("ab").data, ("Tb").data⟩])
        (("EMAIL").data) (("eq").data) (("ab").data) 3) ↔
    (("Ta").data ∈ dbSearch (fun s => s)
        (runDB (fun s => s) 0
          [⟨("EMAIL").data, ("ab").data, ("Ta").data⟩,
           ⟨("EMAIL").data, ("ab").data, ("Tb").data⟩])
        0 (("EMAIL").data) (("eq").data) (("ab").data) 3) := by
  exact claim_C1_backend_equivalence (fun s => s) 0
    [⟨("EMAIL").data, ("ab").data, ("Ta").data⟩,
     ⟨("EMAIL").data, ("ab").data, ("Tb").data⟩]
    (by decide) (by decide) (("EMAIL").data) (("eq").data) (("ab").data) (("Ta").data)

/-- Counterexample for C1 as stated: index `T11` then `T1` under
`EMAIL="ab"` on both backends and run the `eq` query.  The in-memory set
holds both tokens, but the relational `ON CONFLICT` clause sees `T1` as a
substring of the stored string `T11` (`LIKE '%T1%'`) and never appends it,
so the relational backend returns a set without `T1`.  The LIKE wildcards
are live too: indexing `ab` then `a_` under `EMAIL="xy"` drops `a_` on the
relational side (`'ab' LIKE '%a_%'` holds) although `a_` is not a substring
of `ab`. -/
theorem claim_C1_counterexample :
    (("T1").data ∈ redisSearch (fun s => s)
        (indexFieldValue (fun s => s)
          (indexFieldValue (fun s => s) emptyRedis (("EMAIL").data) (("ab").data)
            (("T11").data) 3)
          (("EMAIL").data) (("ab").data) (("T1").data) 3)
        (("EMAIL").data) (("eq").data) (("ab").data) 3) ∧
    ¬ (("T1").data ∈ dbSearch (fun s => s)
        (dbIndexFieldValue (fun s => s)
          (dbIndexFieldValue (fun s => s) emptyPg 0 (("EMAIL").data) (("ab").data)
            (("T11").data))
          0 (("EMAIL").data) (("ab").data) (("T1").data))
        0 (("EMAIL").data) (("eq").data) (("ab").data) 3) ∧
    ¬ (("a_").data <:+: ("ab").data) ∧
    (("a_").data ∈ redisSearch (fun s => s)
        (indexFieldValue (fun s => s)
          (indexFieldValue (fun s => s) emptyRedis (("EMAIL").data) (("xy").data)
            (("ab").data) 3)
          (("EMAIL").data) (("xy").data) (("a_").data) 3)
        (("EMAIL").data) (("eq").data) (("xy").data) 3) ∧
    ¬ (("a_").data ∈ dbSearch (fun s => s)
        (dbIndexFieldValue (fun s => s)
          (dbIndexFieldValue (fun s => s) emptyPg 0 (("EMAIL").data) (("xy").data)
            (("ab").data))
          0 (("EMAIL").data) (("xy").data) (("a_").data))
        0 (("EMAIL").data) (("eq").data) (("xy").data) 3) := by
  decide

end PIISearch
